import Mathlib

/-!
Verification of the Mandel renderer (src/Mandel/src/main.rs).

The program renders a Mandelbrot-set image into a flat byte buffer,
splitting the buffer into horizontal bands that are rendered
independently.  This file shallowly embeds the program:

* `Complex` embeds `num::Complex<f64>`; the `f64` components are
  modelled as exact rationals (`ℚ`), i.e. the real-number semantics of
  the floating-point operations used by the program.
* byte buffers are `List ℕ` (every value written is in `0..=255`);
  in-place slice writes become `List.set`.
* the `crossbeam` scope that renders disjoint bands concurrently is
  modelled by rendering the bands in order and concatenating them:
  the bands are disjoint slices of one buffer, so the sequential
  composition has the same result.
-/

namespace Mandel

/-- Embeds `num::Complex<f64>` (fields `re`, `im`), with `f64` modelled
as exact rational arithmetic. -/
@[ext]
structure Complex where
  re : ℚ
  im : ℚ
deriving DecidableEq, Repr

/-- Complex multiplication, as in the `num` crate:
`(a+bi)(c+di) = (ac − bd) + (ad + bc)i`. -/
instance : Mul Complex := ⟨fun a b => ⟨a.re * b.re - a.im * b.im, a.re * b.im + a.im * b.re⟩⟩

/-- Componentwise complex addition, as in the `num` crate. -/
instance : Add Complex := ⟨fun a b => ⟨a.re + b.re, a.im + b.im⟩⟩

@[simp] theorem Complex.mul_re (a b : Complex) : (a * b).re = a.re * b.re - a.im * b.im := rfl

@[simp] theorem Complex.mul_im (a b : Complex) : (a * b).im = a.re * b.im + a.im * b.re := rfl

@[simp] theorem Complex.add_re (a b : Complex) : (a + b).re = a.re + b.re := rfl

@[simp] theorem Complex.add_im (a b : Complex) : (a + b).im = a.im + b.im := rfl

/-- Embeds `Complex::norm_sqr`: `re*re + im*im`. -/
def norm_sqr (z : Complex) : ℚ := z.re * z.re + z.im * z.im

/-- The loop of `escape_time` (`main.rs:117-122`): `for i in 0..limit`,
with the countdown of remaining passes as the structural argument.
At each pass it first checks `z.norm_sqr() > 4.0` (returning `Some i`),
then performs the update `z = z * z + c`. -/
def escapeLoop (c : Complex) : Complex → ℕ → ℕ → Option ℕ
  | _, _, 0 => none
  | z, i, n + 1 => if 4 < norm_sqr z then some i else escapeLoop c (z * z + c) (i + 1) n

/-- Embeds `escape_time` (`main.rs:114-125`): start from `z = 0 + 0i`
and run the loop for `limit` passes. -/
def escape_time (c : Complex) (limit : ℕ) : Option ℕ := escapeLoop c ⟨0, 0⟩ 0 limit

/-- The orbit of the quadratic recurrence: `zIter c k` is the value of
`z` after `k` completed `z ← z² + c` updates starting from `0 + 0i`. -/
def zIter (c : Complex) : ℕ → Complex
  | 0 => ⟨0, 0⟩
  | n + 1 => zIter c n * zIter c n + c

theorem escapeLoop_some_iff (c : Complex) :
    ∀ (n k j : ℕ),
      escapeLoop c (zIter c k) k n = some j ↔
        k ≤ j ∧ j < k + n ∧ 4 < norm_sqr (zIter c j) ∧
          ∀ m, k ≤ m → m < j → norm_sqr (zIter c m) ≤ 4 := by
  intro n
  induction n with
  | zero =>
    intro k j
    simp only [escapeLoop]
    constructor
    · intro h; exact absurd h (by simp)
    · rintro ⟨h1, h2, -⟩; omega
  | succ n ih =>
    intro k j
    rw [show escapeLoop c (zIter c k) k (n + 1)
          = if 4 < norm_sqr (zIter c k) then some k
            else escapeLoop c (zIter c k * zIter c k + c) (k + 1) n from rfl]
    by_cases h4 : 4 < norm_sqr (zIter c k)
    · rw [if_pos h4]
      constructor
      · rintro h
        have hj : j = k := by simpa using h.symm
        subst hj
        exact ⟨le_refl _, by omega, h4, fun m hm1 hm2 => by omega⟩
      · rintro ⟨h1, h2, h3, hall⟩
        rcases Nat.eq_or_lt_of_le h1 with rfl | hlt
        · rfl
        · exact absurd (hall k (le_refl _) hlt) (by simpa using h4)
    · rw [if_neg h4]
      rw [show zIter c k * zIter c k + c = zIter c (k + 1) from rfl]
      rw [ih (k + 1) j]
      constructor
      · rintro ⟨h1, h2, h3, hall⟩
        refine ⟨by omega, by omega, h3, fun m hm1 hm2 => ?_⟩
        rcases Nat.eq_or_lt_of_le hm1 with rfl | hlt
        · exact le_of_not_lt h4
        · exact hall m hlt hm2
      · rintro ⟨h1, h2, h3, hall⟩
        have hj : j ≠ k := by rintro rfl; exact h4 h3
        exact ⟨by omega, by omega, h3, fun m hm1 hm2 => hall m (by omega) hm2⟩

theorem escapeLoop_none_iff (c : Complex) :
    ∀ (n k : ℕ),
      escapeLoop c (zIter c k) k n = none ↔
        ∀ m, k ≤ m → m < k + n → norm_sqr (zIter c m) ≤ 4 := by
  intro n
  induction n with
  | zero =>
    intro k
    simp only [escapeLoop]
    constructor
    · intro _ m hm1 hm2; omega
    · intro _; trivial
  | succ n ih =>
    intro k
    rw [show escapeLoop c (zIter c k) k (n + 1)
          = if 4 < norm_sqr (zIter c k) then some k
            else escapeLoop c (zIter c k * zIter c k + c) (k + 1) n from rfl]
    by_cases h4 : 4 < norm_sqr (zIter c k)
    · rw [if_pos h4]
      constructor
      · intro h; exact absurd h (by simp)
      · intro hall
        exact absurd (hall k (le_refl _) (by omega)) (by simpa using h4)
    · rw [if_neg h4]
      rw [show zIter c k * zIter c k + c = zIter c (k + 1) from rfl]
      rw [ih (k + 1)]
      constructor
      · intro hall m hm1 hm2
        rcases Nat.eq_or_lt_of_le hm1 with rfl | hlt
        · exact le_of_not_lt h4
        · exact hall m hlt (by omega)
      · intro hall m hm1 hm2
        exact hall m (by omega) (by omega)

/-- **C1.** `escape_time c n = some i` exactly when `i < n`, the orbit
value after `i` completed `z ← z² + c` updates is the first whose
squared norm exceeds `4`, i.e. `i` is the number of updates survived
before the divergence check `|z|² > 4` passed; and the result is `none`
exactly when all `n` checks pass without the squared norm exceeding
`4`.  In particular a `some` result is always `< n`. -/
theorem escape_time_characterization (c : Complex) (n : ℕ) :
    (∀ i, escape_time c n = some i ↔
        i < n ∧ 4 < norm_sqr (zIter c i) ∧ ∀ j, j < i → norm_sqr (zIter c j) ≤ 4) ∧
    (escape_time c n = none ↔ ∀ j, j < n → norm_sqr (zIter c j) ≤ 4) := by
  have h0 : ∀ m, escape_time c m = escapeLoop c (zIter c 0) 0 m := fun _ => rfl
  constructor
  · intro i
    rw [h0, escapeLoop_some_iff c n 0 i]
    constructor
    · rintro ⟨-, h2, h3, hall⟩
      exact ⟨by omega, h3, fun j hj => hall j (by omega) hj⟩
    · rintro ⟨h1, h2, hall⟩
      exact ⟨by omega, by omega, h2, fun m _ hm => hall m hm⟩
  · rw [h0, escapeLoop_none_iff c n 0]
    constructor
    · intro hall j hj; exact hall j (by omega) (by omega)
    · intro hall m _ hm; exact hall m (by omega)

theorem escape_time_characterization_witness :
    escape_time ⟨3, 0⟩ 3 = some 1 ↔
      1 < 3 ∧ 4 < norm_sqr (zIter ⟨3, 0⟩ 1) ∧ ∀ j, j < 1 → norm_sqr (zIter ⟨3, 0⟩ j) ≤ 4 :=
  (escape_time_characterization ⟨3, 0⟩ 3).1 1

theorem escapeLoop_zero_orbit : ∀ (n i : ℕ), escapeLoop ⟨0, 0⟩ ⟨0, 0⟩ i n = none := by
  intro n
  induction n with
  | zero => intro i; rfl
  | succ n ih =>
    intro i
    rw [show escapeLoop ⟨0, 0⟩ (⟨0, 0⟩ : Complex) i (n + 1)
          = if 4 < norm_sqr ⟨0, 0⟩ then some i
            else escapeLoop ⟨0, 0⟩ ((⟨0, 0⟩ : Complex) * ⟨0, 0⟩ + ⟨0, 0⟩) (i + 1) n from rfl]
    rw [if_neg (by norm_num [norm_sqr])]
    rw [show (⟨0, 0⟩ : Complex) * ⟨0, 0⟩ + ⟨0, 0⟩ = (⟨0, 0⟩ : Complex) from by ext <;> simp]
    exact ih (i + 1)

theorem escapeLoop_some_ge (c : Complex) :
    ∀ (n : ℕ) (z : Complex) (i j : ℕ), escapeLoop c z i n = some j → i ≤ j := by
  intro n
  induction n with
  | zero => intro z i j h; exact absurd h (by simp [escapeLoop])
  | succ n ih =>
    intro z i j h
    rw [show escapeLoop c z i (n + 1)
          = if 4 < norm_sqr z then some i else escapeLoop c (z * z + c) (i + 1) n from rfl] at h
    by_cases h4 : 4 < norm_sqr z
    · rw [if_pos h4] at h
      simp only [Option.some.injEq] at h
      omega
    · rw [if_neg h4] at h
      have := ih (z * z + c) (i + 1) j h
      omega

/-- **C2 counterexample.**  The claim says `escape_time c limit = Some 0`
whenever `|c| > 2` (i.e. `norm_sqr c > 4`) and the limit is positive.
At `c = 3 + 0i` and `limit = 2`, the code returns `Some 1`, not
`Some 0`: the first divergence check inspects `z = 0`, which never
exceeds the radius. -/
theorem escape_time_outside_radius_cex :
    4 < norm_sqr ⟨3, 0⟩ ∧ 0 < 2 ∧ escape_time ⟨3, 0⟩ 2 ≠ some 0 := by
  refine ⟨by norm_num [norm_sqr], by norm_num, ?_⟩
  norm_num [escape_time, escapeLoop, norm_sqr]

/-- **C2 (amended).**  For every point `c` with `|c| > 2` (embedded as
`norm_sqr c > 4`) and every limit `≥ 2`, `escape_time c limit` returns
`Some 1` (the check at pass 0 inspects `z = 0` and passes; the check at
pass 1 inspects `z = c` and fails); and for `c = 0 + 0i` the result is
`None` for every such limit, since the orbit stays at `0`. -/
theorem escape_time_outside_radius (c : Complex) (limit : ℕ)
    (hc : 4 < norm_sqr c) (hl : 2 ≤ limit) :
    escape_time c limit = some 1 ∧ escape_time ⟨0, 0⟩ limit = none := by
  obtain ⟨n, rfl⟩ : ∃ n, limit = n + 2 := ⟨limit - 2, by omega⟩
  constructor
  · show escapeLoop c ⟨0, 0⟩ 0 (n + 2) = some 1
    rw [show escapeLoop c (⟨0, 0⟩ : Complex) 0 (n + 2)
          = if 4 < norm_sqr ⟨0, 0⟩ then some 0
            else escapeLoop c ((⟨0, 0⟩ : Complex) * ⟨0, 0⟩ + c) 1 (n + 1) from rfl]
    rw [if_neg (by norm_num [norm_sqr])]
    rw [show (⟨0, 0⟩ : Complex) * ⟨0, 0⟩ + c = c from by ext <;> simp]
    rw [show escapeLoop c c 1 (n + 1)
          = if 4 < norm_sqr c then some 1 else escapeLoop c (c * c + c) 2 n from rfl]
    rw [if_pos hc]
  · exact escapeLoop_zero_orbit (n + 2) 0

theorem escape_time_outside_radius_witness :
    4 < norm_sqr ⟨3, 0⟩ ∧ 2 ≤ 2 ∧ escape_time ⟨3, 0⟩ 2 = some 1 ∧
      escape_time ⟨0, 0⟩ 2 = none :=
  have h := escape_time_outside_radius ⟨3, 0⟩ 2 (by norm_num [norm_sqr]) (by norm_num)
  ⟨by norm_num [norm_sqr], by norm_num, h.1, h.2⟩

/-- Embeds `pixel_to_point` (`main.rs:104-112`): affine map from a pixel
coordinate `(col, row)` to a point of the complex plane, given the image
bounds `(width, height)` and the viewport corners. -/
def pixel_to_point (bounds pixel : ℕ × ℕ) (upper_left lower_right : Complex) : Complex :=
  let width := lower_right.re - upper_left.re
  let height := upper_left.im - lower_right.im
  ⟨upper_left.re + (pixel.1 : ℚ) * width / (bounds.1 : ℚ),
   upper_left.im - (pixel.2 : ℚ) * height / (bounds.2 : ℚ)⟩

/-- **C5.**  For a viewport satisfying the invariant
(`upper_left.re < lower_right.re`, `upper_left.im > lower_right.im`) and
positive bounds, pixel `(0, 0)` maps exactly to `upper_left` and pixel
`(width, height)` maps exactly to `lower_right`. -/
theorem pixel_to_point_corners (w h : ℕ) (ul lr : Complex)
    (hw : 0 < w) (hh : 0 < h) (hre : ul.re < lr.re) (him : lr.im < ul.im) :
    pixel_to_point (w, h) (0, 0) ul lr = ul ∧ pixel_to_point (w, h) (w, h) ul lr = lr := by
  have hw' : (w : ℚ) ≠ 0 := Nat.cast_ne_zero.mpr hw.ne'
  have hh' : (h : ℚ) ≠ 0 := Nat.cast_ne_zero.mpr hh.ne'
  constructor
  · ext <;> simp [pixel_to_point]
  · ext
    · show ul.re + (w : ℚ) * (lr.re - ul.re) / (w : ℚ) = lr.re
      field_simp
    · show ul.im - (h : ℚ) * (ul.im - lr.im) / (h : ℚ) = lr.im
      field_simp

theorem pixel_to_point_corners_witness :
    0 < 1 ∧ 0 < 1 ∧ (⟨0, 1⟩ : Complex).re < (⟨1, 0⟩ : Complex).re ∧
      (⟨1, 0⟩ : Complex).im < (⟨0, 1⟩ : Complex).im ∧
      pixel_to_point (1, 1) (0, 0) ⟨0, 1⟩ ⟨1, 0⟩ = ⟨0, 1⟩ ∧
      pixel_to_point (1, 1) (1, 1) ⟨0, 1⟩ ⟨1, 0⟩ = ⟨1, 0⟩ :=
  have h := pixel_to_point_corners 1 1 ⟨0, 1⟩ ⟨1, 0⟩ (by decide) (by decide)
    (by norm_num) (by norm_num)
  ⟨by decide, by decide, by norm_num, by norm_num, h.1, h.2⟩

/-- A band's own viewport is obtained by mapping its pixel corners
`(0, top)` and `(width, top + band_height)` through the full-image
geometry (`main.rs:40-41`).  Mapping a band-local pixel through the
band's bounds and viewport lands on exactly the same point as mapping
the corresponding global pixel through the full-image geometry. -/
theorem pixel_to_point_band (w h bh t rho col : ℕ) (ul lr : Complex)
    (hw : (w : ℚ) ≠ 0) (hh : (h : ℚ) ≠ 0) (hbh : (bh : ℚ) ≠ 0) :
    pixel_to_point (w, bh) (col, rho)
        (pixel_to_point (w, h) (0, t) ul lr)
        (pixel_to_point (w, h) (w, t + bh) ul lr)
      = pixel_to_point (w, h) (col, t + rho) ul lr := by
  ext
  · show (pixel_to_point (w, bh) (col, rho) _ _).re = _
    simp only [pixel_to_point]
    push_cast
    field_simp
  · show (pixel_to_point (w, bh) (col, rho) _ _).im = _
    simp only [pixel_to_point]
    push_cast
    field_simp
    ring

/-- The byte written for one pixel (`main.rs:96-99`): `0` when
`escape_time` returns `None`, else `255 - count`.  The `count as u8`
conversion is exact because `count < 255` (the loop limit). -/
def pixelByte (bounds pixel : ℕ × ℕ) (upper_left lower_right : Complex) : ℕ :=
  match escape_time (pixel_to_point bounds pixel upper_left lower_right) 255 with
  | none => 0
  | some count => 255 - count

/-- The nested pixel loop of `render` (`main.rs:93-101`): for each
`row` and `column` write `pixels[row * width + column]` in place. -/
def renderLoop (pixels : List ℕ) (bounds : ℕ × ℕ) (upper_left lower_right : Complex) : List ℕ :=
  (List.range bounds.2).foldl
    (fun buf row =>
      (List.range bounds.1).foldl
        (fun buf2 col =>
          buf2.set (row * bounds.1 + col) (pixelByte bounds (col, row) upper_left lower_right))
        buf)
    pixels

/-- Embeds `render` (`main.rs:90-102`).  The
`assert!(pixels.len() == bounds.0 * bounds.1)` is modelled by returning
`none` (a panic) when the precondition fails. -/
def render (pixels : List ℕ) (bounds : ℕ × ℕ) (upper_left lower_right : Complex) :
    Option (List ℕ) :=
  if pixels.length = bounds.1 * bounds.2 then
    some (renderLoop pixels bounds upper_left lower_right)
  else none

theorem rowFold_eq (w : ℕ) (v : ℕ → ℕ) (t : ℕ) :
    ∀ (b : List ℕ), t + w ≤ b.length →
      (List.range w).foldl (fun bb c => bb.set (t + c) (v c)) b
        = b.take t ++ (List.range w).map v ++ b.drop (t + w) := by
  induction w with
  | zero => intro b _; simp [List.take_append_drop]
  | succ w ih =>
    intro b hb
    rw [List.range_succ, List.foldl_append, List.foldl_cons, List.foldl_nil]
    rw [ih b (by omega)]
    have htake : (b.take t).length = t := by
      rw [List.length_take]; omega
    have hmap : ((List.range w).map v).length = w := by simp
    rw [List.set_append, if_neg (by rw [List.length_append, htake, hmap]; omega)]
    rw [List.length_append, htake, hmap]
    rw [show t + w - (t + w) = 0 from by omega]
    rw [List.drop_eq_getElem_cons (show t + w < b.length from by omega), List.set_cons_zero]
    rw [List.map_append]
    simp [List.append_assoc]
    rw [Nat.add_assoc]

theorem rowFold_get_ne (w : ℕ) (v : ℕ → ℕ) (t : ℕ) :
    ∀ (b : List ℕ) (j : ℕ), (∀ c, c < w → j ≠ t + c) →
      ((List.range w).foldl (fun bb c => bb.set (t + c) (v c)) b)[j]? = b[j]? := by
  induction w with
  | zero => intro b j _; rfl
  | succ w ih =>
    intro b j hj
    rw [List.range_succ, List.foldl_append, List.foldl_cons, List.foldl_nil]
    rw [List.getElem?_set_ne (fun h => hj w (by omega) h.symm)]
    exact ih b j (fun c hc => hj c (by omega))

/-- The list of bytes produced for rows `0..n` (row-major, `w` columns),
with the byte of pixel `(r, c)` given by `f r c`. -/
def flatRows (w : ℕ) (f : ℕ → ℕ → ℕ) (n : ℕ) : List ℕ :=
  (List.range n).flatMap (fun r => (List.range w).map (f r))

theorem flatRows_succ (w : ℕ) (f : ℕ → ℕ → ℕ) (n : ℕ) :
    flatRows w f (n + 1) = flatRows w f n ++ (List.range w).map (f n) := by
  have hfold : (List.range n).flatMap (fun r => (List.range w).map (f r)) = flatRows w f n := rfl
  rw [flatRows, List.range_succ, List.flatMap_append, hfold]
  simp

theorem flatRows_length (w : ℕ) (f : ℕ → ℕ → ℕ) :
    ∀ n, (flatRows w f n).length = n * w := by
  intro n
  induction n with
  | zero => simp [flatRows]
  | succ n ih =>
    rw [flatRows_succ, List.length_append, ih]
    simp [Nat.succ_mul]

theorem flatRows_getElem (w : ℕ) (f : ℕ → ℕ → ℕ) :
    ∀ (n r c : ℕ), r < n → c < w → (flatRows w f n)[r * w + c]? = some (f r c) := by
  intro n
  induction n with
  | zero => intro r c hr _; omega
  | succ n ih =>
    intro r c hr hc
    rw [flatRows_succ]
    have hfl : (flatRows w f n).length = n * w := flatRows_length w f n
    rcases Nat.lt_or_ge r n with hlt | hge
    · have e1 : (r + 1) * w = r * w + w := Nat.succ_mul _ _
      have e2 : (r + 1) * w ≤ n * w := Nat.mul_le_mul_right _ (by omega)
      rw [List.getElem?_append_left (by omega)]
      exact ih r c hlt hc
    · have hr' : r = n := by omega
      subst hr'
      rw [List.getElem?_append_right (by omega)]
      rw [hfl, show r * w + c - r * w = c from by omega]
      simp [List.getElem?_map, List.getElem?_range hc]

theorem renderFold_eq (w : ℕ) (f : ℕ → ℕ → ℕ) :
    ∀ (n : ℕ) (b : List ℕ), n * w ≤ b.length →
      (List.range n).foldl
          (fun buf row =>
            (List.range w).foldl (fun b2 col => b2.set (row * w + col) (f row col)) buf)
          b
        = flatRows w f n ++ b.drop (n * w) := by
  intro n
  induction n with
  | zero => intro b _; simp [flatRows]
  | succ n ih =>
    intro b hb
    have hmul : (n + 1) * w = n * w + w := Nat.succ_mul _ _
    rw [List.range_succ, List.foldl_append, List.foldl_cons, List.foldl_nil]
    rw [ih b (by omega)]
    rw [rowFold_eq w (f n) (n * w) _
          (by rw [List.length_append, flatRows_length, List.length_drop]; omega)]
    have hfl : (flatRows w f n).length = n * w := flatRows_length w f n
    rw [List.take_append_of_le_length (by omega), List.take_of_length_le (by omega)]
    rw [show n * w + w = (flatRows w f n).length + w from by omega, List.drop_append]
    rw [List.drop_drop]
    rw [flatRows_succ]
    simp [List.append_assoc, hmul]

theorem renderFold_get_ne (w : ℕ) (f : ℕ → ℕ → ℕ) :
    ∀ (n : ℕ) (b : List ℕ) (j : ℕ), (∀ r c, r < n → c < w → j ≠ r * w + c) →
      ((List.range n).foldl
          (fun buf row =>
            (List.range w).foldl (fun b2 col => b2.set (row * w + col) (f row col)) buf)
          b)[j]? = b[j]? := by
  intro n
  induction n with
  | zero => intro b j _; rfl
  | succ n ih =>
    intro b j hj
    rw [List.range_succ, List.foldl_append, List.foldl_cons, List.foldl_nil]
    rw [rowFold_get_ne w (f n) (n * w) _ j (fun c hc => hj n c (by omega) hc)]
    exact ih b j (fun r c hr hc => hj r c (by omega) hc)

/-- The pure per-pixel description of one `render` call on bounds
`(w, h)`: row-major bytes `pixelByte` for every pixel. -/
theorem renderLoop_eq (pixels : List ℕ) (w h : ℕ) (ul lr : Complex)
    (hlen : h * w ≤ pixels.length) :
    renderLoop pixels (w, h) ul lr
      = flatRows w (fun r c => pixelByte (w, h) (c, r) ul lr) h ++ pixels.drop (h * w) :=
  renderFold_eq w (fun r c => pixelByte (w, h) (c, r) ul lr) h pixels hlen

/-- **C6.**  Under the length precondition, `render` succeeds, writes at
offset `row * width + col` the byte `0` when the point's escape time is
`None` and `255 - count` when it is `Some count` (this is `pixelByte`),
and leaves every position that is not a pixel offset of the band
unchanged: it writes nothing outside its band slice. -/
theorem render_band_pixels (pixels : List ℕ) (w h : ℕ) (ul lr : Complex)
    (hlen : pixels.length = w * h) :
    render pixels (w, h) ul lr = some (renderLoop pixels (w, h) ul lr) ∧
    (∀ row col, row < h → col < w →
        (renderLoop pixels (w, h) ul lr)[row * w + col]?
          = some (pixelByte (w, h) (col, row) ul lr)) ∧
    (∀ j, (∀ r c, r < h → c < w → j ≠ r * w + c) →
        (renderLoop pixels (w, h) ul lr)[j]? = pixels[j]?) := by
  refine ⟨by simp [render, hlen], ?_, ?_⟩
  · intro row col hrow hcol
    rw [renderLoop_eq pixels w h ul lr (by rw [hlen, Nat.mul_comm])]
    have e1 : (row + 1) * w = row * w + w := Nat.succ_mul _ _
    have e2 : (row + 1) * w ≤ h * w := Nat.mul_le_mul_right _ (by omega)
    rw [List.getElem?_append_left (by rw [flatRows_length]; omega)]
    exact flatRows_getElem w _ h row col hrow hcol
  · intro j hj
    exact renderFold_get_ne w (fun r c => pixelByte (w, h) (c, r) ul lr) h pixels j hj

theorem render_band_pixels_witness :
    ([0] : List ℕ).length = 1 * 1 ∧
      (renderLoop [0] (1, 1) ⟨3, 3⟩ ⟨4, 2⟩)[0 * 1 + 0]?
        = some (pixelByte (1, 1) (0, 0) ⟨3, 3⟩ ⟨4, 2⟩) :=
  ⟨by decide, (render_band_pixels [0] 1 1 ⟨3, 3⟩ ⟨4, 2⟩ (by decide)).2.1 0 0
    (by decide) (by decide)⟩

theorem escape_time_ge_one (c : Complex) (limit j : ℕ)
    (h : escape_time c limit = some j) : 1 ≤ j := by
  rcases limit with - | n
  · exact absurd h (by simp [escape_time, escapeLoop])
  · rw [show escape_time c (n + 1)
          = if 4 < norm_sqr ⟨0, 0⟩ then some 0
            else escapeLoop c ((⟨0, 0⟩ : Complex) * ⟨0, 0⟩ + c) 1 n from rfl] at h
    rw [if_neg (by norm_num [norm_sqr])] at h
    exact escapeLoop_some_ge c n _ 1 j h

theorem escape_time_lt_limit (c : Complex) (limit j : ℕ)
    (h : escape_time c limit = some j) : j < limit := by
  have h0 : escapeLoop c (zIter c 0) 0 limit = some j := h
  have h' := (escapeLoop_some_iff c limit 0 j).mp h0
  omega

theorem pixelByte_range (bounds pixel : ℕ × ℕ) (ul lr : Complex) :
    pixelByte bounds pixel ul lr = 0 ∨
      (1 ≤ pixelByte bounds pixel ul lr ∧ pixelByte bounds pixel ul lr ≤ 254) := by
  rcases he : escape_time (pixel_to_point bounds pixel ul lr) 255 with - | count
  · left; simp [pixelByte, he]
  · right
    have h1 := escape_time_ge_one _ _ _ he
    have h2 := escape_time_lt_limit _ _ _ he
    simp only [pixelByte, he]
    omega

/-- **C10.**  `escape_time` never returns `Some 0` (the first divergence
check inspects `z = 0`, whose squared norm is `0 ≤ 4`), so every pixel
byte `render` writes is `0` or lies in `1..=254`; in particular the
byte `255` never appears in a rendered buffer. -/
theorem escape_time_never_some_zero (c : Complex) (limit : ℕ) (hl : 0 < limit) :
    escape_time c limit ≠ some 0 ∧
    (∀ bounds pixel ul lr, pixelByte bounds pixel ul lr = 0 ∨
        (1 ≤ pixelByte bounds pixel ul lr ∧ pixelByte bounds pixel ul lr ≤ 254)) ∧
    (∀ (w h : ℕ) (ul lr : Complex),
        ∀ v ∈ renderLoop (List.replicate (w * h) 0) (w, h) ul lr, v ≠ 255) := by
  refine ⟨fun h => by simpa using escape_time_ge_one c limit 0 h, pixelByte_range, ?_⟩
  intro w h ul lr v hv
  rw [renderLoop_eq _ w h ul lr (by rw [List.length_replicate, Nat.mul_comm])] at hv
  rcases List.mem_append.mp hv with hv | hv
  · simp only [flatRows, List.mem_flatMap, List.mem_map] at hv
    rcases hv with ⟨r, -, c2, -, rfl⟩
    rcases pixelByte_range (w, h) (c2, r) ul lr with h0 | ⟨-, h254⟩ <;> omega
  · rw [List.drop_replicate] at hv
    have := List.eq_of_mem_replicate hv
    omega

theorem escape_time_never_some_zero_witness :
    0 < 1 ∧ escape_time ⟨3, 0⟩ 1 ≠ some 0 :=
  ⟨by decide, (escape_time_never_some_zero ⟨3, 0⟩ 1 (by decide)).1⟩

/-- The fixed worker count (`main.rs:29`): `let threads = 8;`. -/
def threads : ℕ := 8

/-- `main.rs:30`: `let rows_per_band = bounds.1 / threads + 1;`. -/
def rows_per_band (height : ℕ) : ℕ := height / threads + 1

/-- **C7.**  The dispatcher hardcodes 8 workers and computes
`rows_per_band` as `height / 8 + 1`, which differs from exact ceiling
division `(height + 7) / 8` exactly when `8` divides `height` (then it
is one more than the ceiling); when `8` does not divide `height` the two
agree. -/
theorem worker_policy :
    threads = 8 ∧ (∀ h, rows_per_band h = h / 8 + 1) ∧
    (∀ h, 0 < h → 8 ∣ h → rows_per_band h ≠ (h + 8 - 1) / 8) ∧
    (∀ h, ¬(8 ∣ h) → rows_per_band h = (h + 8 - 1) / 8) := by
  refine ⟨rfl, fun h => rfl, fun h hpos hdvd => ?_, fun h hdvd => ?_⟩
  · simp only [rows_per_band, threads]
    omega
  · simp only [rows_per_band, threads]
    omega

theorem worker_policy_witness :
    0 < 16 ∧ (8 ∣ 16) ∧ ¬(8 ∣ 12) ∧
      rows_per_band 16 ≠ (16 + 8 - 1) / 8 ∧ rows_per_band 12 = (12 + 8 - 1) / 8 :=
  ⟨by decide, by decide, by decide,
    worker_policy.2.2.1 16 (by decide) (by decide), worker_policy.2.2.2 12 (by decide)⟩

/-- Fuel-indexed model of `slice::chunks_mut`: the list of chunk byte
lengths obtained by splitting a buffer of length `L` into chunks of at
most `s` bytes.  The fuel only drives termination; `L` units of fuel
suffice whenever `s > 0`, which holds at every use site. -/
def chunkLensAux (s : ℕ) : ℕ → ℕ → List ℕ
  | 0, _ => []
  | fuel + 1, L => if L = 0 then [] else if L ≤ s then [L] else s :: chunkLensAux s fuel (L - s)

/-- Chunk lengths of `pixels.chunks_mut(s)` on a buffer of `L` bytes. -/
def chunkLens (s L : ℕ) : List ℕ := chunkLensAux s L L

/-- The byte lengths of the dispatcher's bands (`main.rs:33`):
`pixels.chunks_mut(rows_per_band * bounds.0)` on the
`bounds.0 * bounds.1` byte buffer. -/
def bands (w h : ℕ) : List ℕ := chunkLens (rows_per_band h * w) (w * h)

theorem chunkLensAux_sum (s : ℕ) (hs : 0 < s) :
    ∀ (fuel L : ℕ), L ≤ fuel → (chunkLensAux s fuel L).sum = L := by
  intro fuel
  induction fuel with
  | zero => intro L hL; interval_cases L; rfl
  | succ fuel ih =>
    intro L hL
    rw [chunkLensAux]
    by_cases h0 : L = 0
    · simp [h0]
    · rw [if_neg h0]
      by_cases hLs : L ≤ s
      · rw [if_pos hLs]; simp
      · rw [if_neg hLs]
        rw [List.sum_cons, ih (L - s) (by omega)]
        omega

theorem chunkLensAux_length (s : ℕ) (hs : 0 < s) :
    ∀ (fuel L : ℕ), L ≤ fuel → (chunkLensAux s fuel L).length = (L + s - 1) / s := by
  intro fuel
  induction fuel with
  | zero =>
    intro L hL
    have h0 : L = 0 := by omega
    subst h0
    have hdiv : (0 + s - 1) / s = 0 := Nat.div_eq_of_lt (by omega)
    rw [hdiv]
    rfl
  | succ fuel ih =>
    intro L hL
    rw [chunkLensAux]
    by_cases h0 : L = 0
    · subst h0
      rw [if_pos rfl]
      have hdiv : (0 + s - 1) / s = 0 := Nat.div_eq_of_lt (by omega)
      rw [hdiv]
      rfl
    · rw [if_neg h0]
      by_cases hLs : L ≤ s
      · rw [if_pos hLs]
        have hdiv : (L + s - 1) / s = 1 := Nat.div_eq_of_lt_le (by omega) (by omega)
        rw [hdiv]
        rfl
      · rw [if_neg hLs]
        rw [List.length_cons, ih (L - s) (by omega)]
        rw [show L - s + s - 1 = L - 1 from by omega]
        rw [show L + s - 1 = (L - 1) + s from by omega, Nat.add_div_right _ hs]

theorem chunkLensAux_getD (s : ℕ) (hs : 0 < s) :
    ∀ (fuel L i : ℕ), L ≤ fuel → i < (chunkLensAux s fuel L).length →
      (chunkLensAux s fuel L).getD i 0 = min s (L - i * s) := by
  intro fuel
  induction fuel with
  | zero => intro L i hL hi; interval_cases L; simp [chunkLensAux] at hi
  | succ fuel ih =>
    intro L i hL hi
    rw [chunkLensAux] at hi ⊢
    by_cases h0 : L = 0
    · simp [h0] at hi
    · rw [if_neg h0] at hi ⊢
      by_cases hLs : L ≤ s
      · rw [if_pos hLs] at hi ⊢
        simp at hi
        subst hi
        simp
        omega
      · rw [if_neg hLs] at hi ⊢
        rcases i with - | i
        · simp
          omega
        · rw [List.getD_cons_succ]
          rw [ih (L - s) i (by omega) (by simpa using hi)]
          have hmul : (i + 1) * s = i * s + s := Nat.succ_mul _ _
          congr 1
          omega

theorem min_mul_right' (a b c : ℕ) : min (a * c) (b * c) = min a b * c := by
  rcases Nat.le_total a b with hab | hab
  · rw [Nat.min_eq_left (Nat.mul_le_mul_right c hab), Nat.min_eq_left hab]
  · rw [Nat.min_eq_right (Nat.mul_le_mul_right c hab), Nat.min_eq_right hab]

theorem le_ceil_mul (s L : ℕ) (hs : 0 < s) : L ≤ ((L + s - 1) / s) * s := by
  have h := Nat.div_add_mod (L + s - 1) s
  have hm : (L + s - 1) % s < s := Nat.mod_lt _ hs
  have hcomm : ((L + s - 1) / s) * s = s * ((L + s - 1) / s) := Nat.mul_comm _ _
  omega

theorem ceil_pred_mul_lt (s L : ℕ) (hs : 0 < s) (hL : 0 < L) :
    ((L + s - 1) / s - 1) * s < L := by
  have h1 : ((L + s - 1) / s) * s ≤ L + s - 1 := Nat.div_mul_le_self _ _
  have h2 : ((L + s - 1) / s - 1) * s = ((L + s - 1) / s) * s - 1 * s := Nat.sub_mul _ _ _
  omega

theorem chunkLensAux_dvd (d s : ℕ) (hds : d ∣ s) :
    ∀ (fuel L : ℕ), d ∣ L → ∀ x ∈ chunkLensAux s fuel L, d ∣ x := by
  intro fuel
  induction fuel with
  | zero => intro L _ x hx; simp [chunkLensAux] at hx
  | succ fuel ih =>
    intro L hdL x hx
    rw [chunkLensAux] at hx
    by_cases h0 : L = 0
    · simp [h0] at hx
    · rw [if_neg h0] at hx
      by_cases hLs : L ≤ s
      · rw [if_pos hLs] at hx
        simp at hx
        subst hx
        exact hdL
      · rw [if_neg hLs] at hx
        rcases List.mem_cons.mp hx with rfl | hx
        · exact hds
        · exact ih (L - s) (Nat.dvd_sub' hdL hds) x hx

/-- **C3.**  The dispatcher's split of the `w * h` byte buffer into
chunks of `rows_per_band * w` bytes always falls on row boundaries:
the chunk lengths sum to the whole buffer, each is a multiple of the
width, every chunk except possibly the last is exactly
`rows_per_band * w` bytes (`rows_per_band` full rows), and every row
`r < h` lies in the row range of exactly one band
(`[rows_per_band * i, rows_per_band * i + bandHeight_i)`). -/
theorem band_partition (w h : ℕ) (hw : 0 < w) (hh : 0 < h) :
    (bands w h).sum = w * h ∧
    (∀ len ∈ bands w h, w ∣ len) ∧
    (∀ i, i + 1 < (bands w h).length → (bands w h).getD i 0 = rows_per_band h * w) ∧
    (∀ r, r < h →
        ∃! i, i < (bands w h).length ∧ rows_per_band h * i ≤ r ∧
          r < rows_per_band h * i + (bands w h).getD i 0 / w) := by
  have hrpb : 0 < rows_per_band h := Nat.succ_pos _
  set rpb := rows_per_band h with hrpbdef
  have hs : 0 < rpb * w := Nat.mul_pos hrpb hw
  have hlen : (bands w h).length = (w * h + rpb * w - 1) / (rpb * w) :=
    chunkLensAux_length (rpb * w) hs (w * h) (w * h) (le_refl _)
  have hgetD : ∀ i, i < (bands w h).length →
      (bands w h).getD i 0 = min (rpb * w) (w * h - i * (rpb * w)) := fun i hi =>
    chunkLensAux_getD (rpb * w) hs (w * h) (w * h) i (le_refl _) hi
  have hband_rows : ∀ i, i < (bands w h).length →
      (bands w h).getD i 0 = min rpb (h - rpb * i) * w := by
    intro i hi
    rw [hgetD i hi]
    have e1 : i * (rpb * w) = rpb * i * w := by ring
    have e2 : w * h - rpb * i * w = (h - rpb * i) * w := by
      rw [Nat.mul_comm w h, Nat.sub_mul]
    rw [e1, e2, min_mul_right']
  refine ⟨chunkLensAux_sum (rpb * w) hs (w * h) (w * h) (le_refl _),
    fun len hmem =>
      chunkLensAux_dvd w (rpb * w) (dvd_mul_left w rpb) (w * h) (w * h)
        (dvd_mul_right w h) len hmem,
    ?_, ?_⟩
  · intro i hi1
    have hi : i < (bands w h).length := by omega
    rw [hband_rows i hi]
    have hceil : ((w * h + rpb * w - 1) / (rpb * w) - 1) * (rpb * w) < w * h :=
      ceil_pred_mul_lt (rpb * w) (w * h) hs (Nat.mul_pos hw hh)
    rw [hlen] at hi1
    have hle : (i + 1) * (rpb * w) ≤ ((w * h + rpb * w - 1) / (rpb * w) - 1) * (rpb * w) :=
      Nat.mul_le_mul_right _ (by omega)
    have e3 : (i + 1) * (rpb * w) = rpb * i * w + rpb * w := by ring
    have e4 : w * h = h * w := Nat.mul_comm _ _
    have e5 : (rpb * i + rpb) * w = rpb * i * w + rpb * w := Nat.add_mul _ _ _
    have hrow : rpb * i + rpb ≤ h :=
      Nat.le_of_mul_le_mul_right (by omega) hw
    have hmin : min rpb (h - rpb * i) = rpb := by omega
    rw [hmin]
  · intro r hr
    have hdivmod := Nat.div_add_mod r rpb
    have hmod : r % rpb < rpb := Nat.mod_lt _ hrpb
    have hi0K : r / rpb < (bands w h).length := by
      by_contra hcon
      push_neg at hcon
      have h1 : (bands w h).length * rpb ≤ r / rpb * rpb := Nat.mul_le_mul_right _ hcon
      have h2 : r / rpb * rpb ≤ r := Nat.div_mul_le_self _ _
      have h3 : w * h ≤ (w * h + rpb * w - 1) / (rpb * w) * (rpb * w) :=
        le_ceil_mul (rpb * w) (w * h) hs
      have e1 : (w * h + rpb * w - 1) / (rpb * w) * (rpb * w)
          = (w * h + rpb * w - 1) / (rpb * w) * rpb * w := by ring
      have e4 : w * h = h * w := Nat.mul_comm _ _
      have h4 : h ≤ (w * h + rpb * w - 1) / (rpb * w) * rpb :=
        Nat.le_of_mul_le_mul_right (by omega) hw
      rw [hlen] at h1
      have e6 : r / rpb * rpb = rpb * (r / rpb) := Nat.mul_comm _ _
      omega
    refine ⟨r / rpb, ⟨hi0K, by omega, ?_⟩, ?_⟩
    · rw [hband_rows _ hi0K, Nat.mul_div_cancel _ hw]
      omega
    · rintro i ⟨hiK, hle, hlt⟩
      rw [hband_rows i hiK, Nat.mul_div_cancel _ hw] at hlt
      have e1 : i * rpb = rpb * i := Nat.mul_comm _ _
      have e2 : (i + 1) * rpb = rpb * i + rpb := by ring
      have hi_le : i ≤ r / rpb := (Nat.le_div_iff_mul_le hrpb).mpr (by omega)
      have hi_ge : r / rpb < i + 1 := (Nat.div_lt_iff_lt_mul hrpb).mpr (by omega)
      omega

theorem band_partition_witness :
    bands 2 3 = [2, 2, 2] ∧
      ((bands 2 3).sum = 2 * 3 ∧
        (∀ len ∈ bands 2 3, 2 ∣ len) ∧
        (∀ i, i + 1 < (bands 2 3).length → (bands 2 3).getD i 0 = rows_per_band 3 * 2) ∧
        (∀ r, r < 3 →
            ∃! i, i < (bands 2 3).length ∧ rows_per_band 3 * i ≤ r ∧
              r < rows_per_band 3 * i + (bands 2 3).getD i 0 / 2)) :=
  ⟨by decide, band_partition 2 3 (by decide) (by decide)⟩

/-- **C8.**  `render` only accepts a slice whose length is
`width * height`, and under that precondition every index
`row * width + col` it accesses is within the slice; every band the
dispatcher constructs (bounds `(w, len / w)`) satisfies the
precondition (`len = w * (len / w)` since every band length is a
multiple of `w`), so the assertion never fires: `render` on a
dispatcher band never returns `none`. -/
theorem render_safety (w h : ℕ) (hw : 0 < w) (hh : 0 < h) :
    (∀ (pixels : List ℕ) (ul lr : Complex), pixels.length = w * h →
        render pixels (w, h) ul lr ≠ none ∧
        (∀ row col, row < h → col < w → row * w + col < pixels.length)) ∧
    (∀ len ∈ bands w h, len = w * (len / w)) ∧
    (∀ (ul lr : Complex) (i : ℕ), ∀ len ∈ bands w h,
        render (List.replicate len 0) (w, len / w)
          (pixel_to_point (w, h) (0, rows_per_band h * i) ul lr)
          (pixel_to_point (w, h) (w, rows_per_band h * i + len / w) ul lr) ≠ none) := by
  have hdvd : ∀ len ∈ bands w h, w ∣ len := fun len hmem =>
    chunkLensAux_dvd w (rows_per_band h * w) (dvd_mul_left w _) (w * h) (w * h)
      (dvd_mul_right w h) len hmem
  refine ⟨fun pixels ul lr hlen => ⟨by simp [render, hlen], ?_⟩, ?_, ?_⟩
  · intro row col hrow hcol
    have e1 : (row + 1) * w = row * w + w := Nat.succ_mul _ _
    have e2 : (row + 1) * w ≤ h * w := Nat.mul_le_mul_right _ (by omega)
    have e3 : w * h = h * w := Nat.mul_comm _ _
    omega
  · intro len hmem
    exact (Nat.mul_div_cancel' (hdvd len hmem)).symm
  · intro ul lr i len hmem
    have hl : w * (len / w) = len := Nat.mul_div_cancel' (hdvd len hmem)
    have hcond : (List.replicate len 0).length = (w, len / w).1 * (w, len / w).2 := by
      rw [List.length_replicate]
      exact hl.symm
    rw [render, if_pos hcond]
    simp

theorem render_safety_witness :
    0 < 1 ∧ ([0] : List ℕ).length = 1 * 1 ∧ render [0] (1, 1) ⟨0, 1⟩ ⟨1, 0⟩ ≠ none :=
  ⟨by decide, by decide,
    ((render_safety 1 1 (by decide) (by decide)).1 [0] ⟨0, 1⟩ ⟨1, 0⟩ (by decide)).1⟩

/-- The body of the dispatcher loop (`main.rs:36-45`) for band `i` with
byte length `len`: the band slice of the zero buffer is
`replicate len 0`, its bounds are `(bounds.0, band.len() / bounds.0)`,
and its viewport corners are mapped through the full-image geometry at
pixel rows `top = rows_per_band * i` and `top + height`. -/
def renderBand (w h : ℕ) (ul lr : Complex) (i len : ℕ) : Option (List ℕ) :=
  render (List.replicate len 0) (w, len / w)
    (pixel_to_point (w, h) (0, rows_per_band h * i) ul lr)
    (pixel_to_point (w, h) (w, rows_per_band h * i + len / w) ul lr)

/-- The dispatcher (`main.rs:27-48`): allocate the `w * h` zero buffer,
split it into bands with `chunks_mut(rows_per_band * bounds.0)`, render
each band against its own bounds and sub-viewport, and reassemble.  The
concurrently spawned workers own disjoint slices of one buffer, so they
are modelled by rendering the bands in order and concatenating. -/
def mandelMain (w h : ℕ) (ul lr : Complex) : Option (List ℕ) :=
  (((bands w h).enum).mapM (fun p => renderBand w h ul lr p.1 p.2)).map List.flatten

/-- Rows `t ≤ r < t + m` of the full image, rendered row-major through
the full-image geometry `(w, h)` and viewport. -/
def renderRows (w h : ℕ) (ul lr : Complex) (t m : ℕ) : List ℕ :=
  (List.range' t m).flatMap
    (fun r => (List.range w).map (fun col => pixelByte (w, h) (col, r) ul lr))

theorem renderRows_succ (w h : ℕ) (ul lr : Complex) (t m : ℕ) :
    renderRows w h ul lr t (m + 1)
      = (List.range w).map (fun col => pixelByte (w, h) (col, t) ul lr)
          ++ renderRows w h ul lr (t + 1) m := by
  rw [renderRows, List.range'_succ, List.flatMap_cons]
  rfl

theorem renderRows_append (w h : ℕ) (ul lr : Complex) :
    ∀ (a t b : ℕ),
      renderRows w h ul lr t a ++ renderRows w h ul lr (t + a) b
        = renderRows w h ul lr t (a + b) := by
  intro a
  induction a with
  | zero => intro t b; simp [renderRows]
  | succ a ih =>
    intro t b
    rw [renderRows_succ, List.append_assoc, show t + (a + 1) = t + 1 + a from by omega]
    rw [ih (t + 1) b]
    rw [show a + 1 + b = (a + b) + 1 from by omega, renderRows_succ]

theorem pixelByte_congr (b1 p1 b2 p2 : ℕ × ℕ) (ul1 lr1 ul2 lr2 : Complex)
    (hpt : pixel_to_point b1 p1 ul1 lr1 = pixel_to_point b2 p2 ul2 lr2) :
    pixelByte b1 p1 ul1 lr1 = pixelByte b2 p2 ul2 lr2 := by
  unfold pixelByte
  rw [hpt]

/-- Rendering a band of `m` rows against its own bounds `(w, m)` and its
derived sub-viewport yields exactly rows `t..t+m` of the full image. -/
theorem band_flatRows (w h t m : ℕ) (ul lr : Complex)
    (hw : (w : ℚ) ≠ 0) (hh : (h : ℚ) ≠ 0) (hm : (m : ℚ) ≠ 0) :
    flatRows w (fun r c => pixelByte (w, m) (c, r)
        (pixel_to_point (w, h) (0, t) ul lr)
        (pixel_to_point (w, h) (w, t + m) ul lr)) m
      = renderRows w h ul lr t m := by
  rw [renderRows, List.range'_eq_map_range, List.flatMap_map, flatRows]
  congr 1
  funext r
  congr 1
  funext c
  exact pixelByte_congr _ _ _ _ _ _ _ _ (pixel_to_point_band w h m t r c ul lr hw hh hm)

theorem bands_mapM_join (w h : ℕ) (ul lr : Complex) (hw : 0 < w) (hhq : (h : ℚ) ≠ 0) :
    ∀ (fuel m i : ℕ), 0 < m → w * m ≤ fuel →
      ((List.enumFrom i (chunkLensAux (rows_per_band h * w) fuel (w * m))).mapM
          (fun p => renderBand w h ul lr p.1 p.2)).map List.flatten
        = some (renderRows w h ul lr (rows_per_band h * i) m) := by
  have hrpb : 0 < rows_per_band h := Nat.succ_pos _
  have hwq : (w : ℚ) ≠ 0 := Nat.cast_ne_zero.mpr hw.ne'
  intro fuel
  induction fuel with
  | zero =>
    intro m i hm hfuel
    have := Nat.mul_pos hw hm
    omega
  | succ fuel ih =>
    intro m i hm hfuel
    rw [chunkLensAux, if_neg (by have := Nat.mul_pos hw hm; omega)]
    by_cases hms : m ≤ rows_per_band h
    · rw [if_pos (by
        have h1 : w * m ≤ w * rows_per_band h := Nat.mul_le_mul_left w hms
        have e : rows_per_band h * w = w * rows_per_band h := Nat.mul_comm _ _
        omega)]
      rw [show List.enumFrom i [w * m] = [(i, w * m)] from rfl]
      simp only [List.mapM_cons, List.mapM_nil]
      have hband : renderBand w h ul lr i (w * m)
          = some (renderRows w h ul lr (rows_per_band h * i) m) := by
        rw [renderBand]
        have hdiv : w * m / w = m := Nat.mul_div_cancel_left m hw
        rw [hdiv]
        have hcond : (List.replicate (w * m) 0).length = (w, m).1 * (w, m).2 := by
          rw [List.length_replicate]
        rw [render, if_pos hcond]
        congr 1
        rw [renderLoop_eq _ w m _ _
          (by rw [List.length_replicate]; exact Nat.le_of_eq (Nat.mul_comm m w))]
        rw [List.drop_replicate, show w * m - m * w = 0 from by rw [Nat.mul_comm w m]; omega]
        rw [List.replicate_zero, List.append_nil]
        exact band_flatRows w h (rows_per_band h * i) m ul lr hwq hhq
          (Nat.cast_ne_zero.mpr hm.ne')
      rw [hband]
      simp
    · rw [if_neg (fun hcon => hms (Nat.le_of_mul_le_mul_left (by
        have e : rows_per_band h * w = w * rows_per_band h := Nat.mul_comm _ _
        omega) hw))]
      rw [show w * m - rows_per_band h * w = w * (m - rows_per_band h) from by
        rw [Nat.mul_comm w (m - rows_per_band h), Nat.sub_mul, Nat.mul_comm m w,
          Nat.mul_comm (rows_per_band h) w]]
      rw [show List.enumFrom i (rows_per_band h * w ::
            chunkLensAux (rows_per_band h * w) fuel (w * (m - rows_per_band h)))
          = (i, rows_per_band h * w) ::
            List.enumFrom (i + 1)
              (chunkLensAux (rows_per_band h * w) fuel (w * (m - rows_per_band h)))
          from rfl]
      simp only [List.mapM_cons]
      have hband : renderBand w h ul lr i (rows_per_band h * w)
          = some (renderRows w h ul lr (rows_per_band h * i) (rows_per_band h)) := by
        rw [renderBand]
        have hdiv : rows_per_band h * w / w = rows_per_band h := Nat.mul_div_cancel _ hw
        rw [hdiv]
        have hcond : (List.replicate (rows_per_band h * w) 0).length
            = (w, rows_per_band h).1 * (w, rows_per_band h).2 := by
          rw [List.length_replicate]; exact Nat.mul_comm _ _
        rw [render, if_pos hcond]
        congr 1
        rw [renderLoop_eq _ w (rows_per_band h) _ _ (by rw [List.length_replicate])]
        rw [List.drop_replicate, show rows_per_band h * w - rows_per_band h * w = 0 from by omega]
        rw [List.replicate_zero, List.append_nil]
        exact band_flatRows w h (rows_per_band h * i) (rows_per_band h) ul lr hwq hhq
          (Nat.cast_ne_zero.mpr hrpb.ne')
      rw [hband]
      have hih := ih (m - rows_per_band h) (i + 1) (by omega) (by
        have e1 : w * (m - rows_per_band h) = w * m - w * rows_per_band h := by
          rw [Nat.mul_comm w (m - rows_per_band h), Nat.sub_mul, Nat.mul_comm m w,
            Nat.mul_comm (rows_per_band h) w]
        have hpos : 0 < w * rows_per_band h := Nat.mul_pos hw hrpb
        omega)
      cases hrest : (List.enumFrom (i + 1)
          (chunkLensAux (rows_per_band h * w) fuel (w * (m - rows_per_band h)))).mapM
          (fun p => renderBand w h ul lr p.1 p.2) with
      | none => rw [hrest] at hih; simp at hih
      | some Ls =>
        rw [hrest] at hih
        simp only [Option.map_some', Option.some.injEq] at hih
        show some ((renderRows w h ul lr (rows_per_band h * i) (rows_per_band h)
            :: Ls).flatten) = _
        rw [List.flatten_cons, hih]
        rw [show rows_per_band h * (i + 1)
            = rows_per_band h * i + rows_per_band h from Nat.mul_succ _ _]
        rw [renderRows_append]
        rw [show rows_per_band h + (m - rows_per_band h) = m from by omega]

/-- **C4.**  The dispatcher's partition of the image into
`rows_per_band`-row worker bands, each rendered against its own band
bounds and the band viewport derived via `pixel_to_point` from the
full-image viewport, produces exactly the buffer of a single full-image
`render` call: equal inputs give byte-equal buffers regardless of the
partitioning. -/
theorem dispatch_eq_single_render (w h : ℕ) (ul lr : Complex)
    (hw : 0 < w) (hh : 0 < h) (hre : ul.re < lr.re) (him : lr.im < ul.im) :
    mandelMain w h ul lr = render (List.replicate (w * h) 0) (w, h) ul lr := by
  have hhq : (h : ℚ) ≠ 0 := Nat.cast_ne_zero.mpr hh.ne'
  have hG := bands_mapM_join w h ul lr hw hhq (w * h) h 0 hh (le_refl _)
  rw [show mandelMain w h ul lr
        = ((List.enumFrom 0 (chunkLensAux (rows_per_band h * w) (w * h) (w * h))).mapM
            (fun p => renderBand w h ul lr p.1 p.2)).map List.flatten from rfl]
  rw [hG]
  have hcond : (List.replicate (w * h) 0).length = (w, h).1 * (w, h).2 := by
    rw [List.length_replicate]
  rw [render, if_pos hcond]
  congr 1
  rw [Nat.mul_zero]
  rw [renderLoop_eq _ w h ul lr
    (by rw [List.length_replicate]; exact Nat.le_of_eq (Nat.mul_comm h w))]
  rw [List.drop_replicate, show w * h - h * w = 0 from by rw [Nat.mul_comm w h]; omega]
  rw [List.replicate_zero, List.append_nil]
  rw [renderRows, flatRows, ← List.range_eq_range']

theorem dispatch_eq_single_render_witness :
    (0 < 2 ∧ (⟨3, 10⟩ : Complex).re < (⟨4, 9⟩ : Complex).re ∧
        (⟨4, 9⟩ : Complex).im < (⟨3, 10⟩ : Complex).im) ∧
      mandelMain 2 2 ⟨3, 10⟩ ⟨4, 9⟩ = render (List.replicate (2 * 2) 0) (2, 2) ⟨3, 10⟩ ⟨4, 9⟩ :=
  ⟨⟨by decide, by decide, by decide⟩,
    dispatch_eq_single_render 2 2 ⟨3, 10⟩ ⟨4, 9⟩ (by decide) (by decide) (by decide) (by decide)⟩

/-- Embeds `str::find` for a one-character pattern: the index of the
first occurrence of `sep`, or `none`. -/
def findSep : List Char → Char → Option ℕ
  | [], _ => none
  | c :: rest, sep => if c = sep then some 0 else (findSep rest sep).map (· + 1)

/-- Embeds `parse_pair` (`main.rs:134-144`): find the first separator,
parse the substring before it and the substring after it, and pair the
results; any failure yields `None`. -/
def parse_pair {α : Type} (fromStr : List Char → Option α) (s : List Char)
    (separator : Char) : Option (α × α) :=
  match findSep s separator with
  | none => none
  | some index =>
    match fromStr (s.take index), fromStr (s.drop (index + 1)) with
    | some l, some r => some (l, r)
    | _, _ => none

/-- Value of a string of decimal digits. -/
def digitsVal (l : List Char) : ℕ := l.foldl (fun a c => 10 * a + (c.toNat - 48)) 0

/-- Models `u32::from_str`: optional leading `+`, then one or more
decimal digits, rejecting values that overflow 32 bits. -/
def u32_from_str (s : List Char) : Option ℕ :=
  let ds := match s with
    | '+' :: rest => rest
    | _ => s
  if ds ≠ [] ∧ ds.all (·.isDigit) then
    if digitsVal ds < 4294967296 then some (digitsVal ds) else none
  else none

/-- Models `f64::from_str` on plain decimal literals, the subset this
program's inputs exercise: optional sign, integer digits, optional
`.`-separated fraction digits, at least one digit overall.  (The full
grammar also accepts exponents and `inf`/`nan` and rounds to the
nearest `f64`; the literals checked here are exact binary fractions, so
the rational value coincides with the `f64` value.) -/
def f64_from_str (s : List Char) : Option ℚ :=
  let core : List Char → Option ℚ := fun t =>
    let ip := t.takeWhile (·.isDigit)
    match t.dropWhile (·.isDigit) with
    | [] => if ip = [] then none else some (digitsVal ip : ℚ)
    | '.' :: fr =>
      if fr.all (·.isDigit) ∧ (ip ≠ [] ∨ fr ≠ []) then
        some ((digitsVal ip : ℚ) + (digitsVal fr : ℚ) / (10 : ℚ) ^ fr.length)
      else none
    | _ => none
  match s with
  | '-' :: rest => (core rest).map (fun v => -v)
  | '+' :: rest => core rest
  | _ => core s

/-- Embeds `parse_complex` (`main.rs:127-132`): parse `"re,im"` via
`parse_pair` and build the complex point. -/
def parse_complex (s : List Char) : Option Complex :=
  match parse_pair f64_from_str s ',' with
  | some (re, im) => some ⟨re, im⟩
  | none => none

theorem findSep_eq_some (sep : Char) :
    ∀ (s : List Char) (i : ℕ),
      findSep s sep = some i ↔
        i < s.length ∧ s[i]? = some sep ∧ ∀ j, j < i → s[j]? ≠ some sep := by
  intro s
  induction s with
  | nil => intro i; simp [findSep]
  | cons c rest ih =>
    intro i
    rw [findSep]
    by_cases hc : c = sep
    · subst hc
      rw [if_pos rfl]
      constructor
      · intro h
        obtain rfl : i = 0 := by simpa using h.symm
        simp
      · rintro ⟨h1, h2, h3⟩
        rcases i with - | i
        · rfl
        · exact absurd (h3 0 (by omega)) (by simp)
    · rw [if_neg hc]
      rcases i with - | i
      · simp [Option.map_eq_some', hc]
      · simp only [Option.map_eq_some']
        constructor
        · rintro ⟨a, ha, haa⟩
          have ha2 : a = i := by omega
          rw [ha2] at ha
          rcases (ih i).mp ha with ⟨h1, h2, h3⟩
          refine ⟨by simpa using h1, by simpa using h2, ?_⟩
          intro j hj
          rcases j with - | j
          · simp [hc]
          · simpa using h3 j (by omega)
        · rintro ⟨h1, h2, h3⟩
          refine ⟨i, (ih i).mpr ⟨by simpa using h1, by simpa using h2, ?_⟩, rfl⟩
          intro j hj
          simpa using h3 (j + 1) (by omega)

/-- **C9.**  `parse_pair` succeeds with `(l, r)` exactly when the input
contains the separator and both the substring before its first
occurrence and the substring after it parse; concretely `"10,20"`
parses to `(10, 20)`, the malformed inputs `""`, `"10,"`, `",10"`
parse to `none`, `parse_complex "1.25,-0.0625"` yields the point
`1.25 - 0.0625i`, and `parse_complex ",-0.0625"` yields `none`. -/
theorem parse_pair_spec :
    (∀ (α : Type) (fromStr : List Char → Option α) (s : List Char) (sep : Char) (l r : α),
        parse_pair fromStr s sep = some (l, r) ↔
          ∃ i, i < s.length ∧ s[i]? = some sep ∧ (∀ j, j < i → s[j]? ≠ some sep) ∧
            fromStr (s.take i) = some l ∧ fromStr (s.drop (i + 1)) = some r) ∧
    parse_pair u32_from_str "10,20".toList ',' = some (10, 20) ∧
    parse_pair u32_from_str "".toList ',' = none ∧
    parse_pair u32_from_str "10,".toList ',' = none ∧
    parse_pair u32_from_str ",10".toList ',' = none ∧
    parse_complex "1.25,-0.0625".toList = some ⟨1.25, -0.0625⟩ ∧
    parse_complex ",-0.0625".toList = none := by
  refine ⟨?_, by decide, by decide, by decide, by decide, ?_, by decide⟩
  · intro α fromStr s sep l r
    cases hf : findSep s sep with
    | none =>
      have hpp : parse_pair fromStr s sep = none := by rw [parse_pair, hf]
      rw [hpp]
      constructor
      · intro h
        exact absurd h (by simp)
      · rintro ⟨i, h1, h2, h3, -, -⟩
        have hsome : findSep s sep = some i := (findSep_eq_some sep s i).mpr ⟨h1, h2, h3⟩
        rw [hf] at hsome
        exact absurd hsome (by simp)
    | some idx =>
      have hidx := (findSep_eq_some sep s idx).mp hf
      have hpp : parse_pair fromStr s sep
          = match fromStr (s.take idx), fromStr (s.drop (idx + 1)) with
            | some lv, some rv => some (lv, rv)
            | _, _ => none := by rw [parse_pair, hf]
      rw [hpp]
      constructor
      · intro hsome
        rcases hl2 : fromStr (s.take idx) with - | lv
        · rw [hl2] at hsome
          simp at hsome
        · rcases hr2 : fromStr (s.drop (idx + 1)) with - | rv
          · rw [hl2, hr2] at hsome
            simp at hsome
          · rw [hl2, hr2] at hsome
            simp only [Option.some.injEq, Prod.mk.injEq] at hsome
            exact ⟨idx, hidx.1, hidx.2.1, hidx.2.2,
              by rw [hl2, hsome.1], by rw [hr2, hsome.2]⟩
      · rintro ⟨i, h1, h2, h3, hl', hr'⟩
        have hsome : findSep s sep = some i := (findSep_eq_some sep s i).mpr ⟨h1, h2, h3⟩
        rw [hf] at hsome
        have hii : idx = i := by simpa using hsome
        rw [hii, hl', hr']
  · have hsplit : parse_complex "1.25,-0.0625".toList
        = some ⟨(digitsVal ['1'] : ℚ) + (digitsVal ['2', '5'] : ℚ) / (10 : ℚ) ^ 2,
            -((digitsVal ['0'] : ℚ) + (digitsVal ['0', '6', '2', '5'] : ℚ) / (10 : ℚ) ^ 4)⟩ :=
      rfl
    have d1 : digitsVal ['1'] = 1 := rfl
    have d2 : digitsVal ['2', '5'] = 25 := rfl
    have d3 : digitsVal ['0'] = 0 := rfl
    have d4 : digitsVal ['0', '6', '2', '5'] = 625 := rfl
    rw [hsplit, d1, d2, d3, d4]
    norm_num [Complex.mk.injEq]

theorem parse_pair_spec_witness :
    parse_pair u32_from_str "10,20".toList ',' = some (10, 20) ∧
      parse_complex ",-0.0625".toList = none :=
  ⟨parse_pair_spec.2.1, parse_pair_spec.2.2.2.2.2.2⟩

end Mandel
